import Mathlib

/-!
Shallow embedding of the OLOP planner core
(src/rl_agents/agents/tree_search/olop.py) and proofs about it.

The embedding follows the Python source line by line:
machine floats become real numbers, the config dictionary becomes a
structure with optional fields, exceptions become `Except`, Python dicts
(whose iteration order is insertion order) become association lists, and
the in-place node mutation of `update` becomes explicit state passing.
The statistical bound primitives (`hoeffding_upper_bound`,
`kl_upper_bound`) live outside this file's source and are taken as
opaque-to-us function parameters, as the spec treats them
("consumed as pure functions").
-/

namespace OLOPSpec

/-! ## OLOP.horizon (olop.py lines 59-61)

`return int(np.ceil(np.log(episodes) / (2 * np.log(1 / gamma))))` -/

noncomputable def horizon (episodes : ℕ) (γ : ℝ) : ℤ :=
  ⌈Real.log (episodes : ℝ) / (2 * Real.log (1 / γ))⌉

/-! ## OLOP.allocate_budget (olop.py lines 63-73)

```
for episodes in range(1, self.config["budget"]):
    if episodes * OLOP.horizon(episodes, gamma) > self.config["budget"]:
        self.config["episodes"] = episodes - 1
        self.config["horizon"] = OLOP.horizon(episodes - 1, gamma)
        break
else:
    raise ValueError("Could not split budget ...")
```

`allocLoop B gamma fuel ep` runs the loop body with current index `ep`
and `fuel` indices left to try; `range(1, B)` has `B - 1` indices.
`none` models the `ValueError`. -/

noncomputable def allocLoop (B : ℕ) (γ : ℝ) : ℕ → ℕ → Option (ℕ × ℤ)
  | 0, _ => none
  | fuel + 1, ep =>
    if (B : ℤ) < (ep : ℤ) * horizon ep γ then
      some (ep - 1, horizon (ep - 1) γ)
    else
      allocLoop B γ fuel (ep + 1)

noncomputable def allocate_budget (B : ℕ) (γ : ℝ) : Option (ℕ × ℤ) :=
  allocLoop B γ (B - 1) 1

/-! ### Basic facts about `horizon` -/

theorem horizon_one (γ : ℝ) : horizon 1 γ = 0 := by
  simp [horizon]

theorem log_one_div_pos {γ : ℝ} (h0 : 0 < γ) (h1 : γ < 1) :
    0 < Real.log (1 / γ) :=
  Real.log_pos (by rw [lt_div_iff₀ h0]; linarith)

theorem horizon_nonneg {γ : ℝ} (M : ℕ) (h0 : 0 < γ) (h1 : γ < 1)
    (hM : 1 ≤ M) : 0 ≤ horizon M γ := by
  apply Int.ceil_nonneg
  apply div_nonneg
  · exact Real.log_nonneg (by exact_mod_cast hM)
  · have := log_one_div_pos h0 h1
    linarith

theorem horizon_mono_episodes {γ : ℝ} {M M2 : ℕ} (h0 : 0 < γ) (h1 : γ < 1)
    (hM : 1 ≤ M) (hMM : M ≤ M2) : horizon M γ ≤ horizon M2 γ := by
  apply Int.ceil_le_ceil
  have hd : 0 < 2 * Real.log (1 / γ) := by
    have := log_one_div_pos h0 h1; linarith
  apply (div_le_div_iff_of_pos_right hd).mpr
  exact Real.log_le_log (by exact_mod_cast hM) (by exact_mod_cast hMM)

theorem horizon_mono_gamma {γ γ2 : ℝ} (M : ℕ) (hM : 1 ≤ M) (h0 : 0 < γ)
    (hγγ : γ ≤ γ2) (h1 : γ2 < 1) : horizon M γ ≤ horizon M γ2 := by
  apply Int.ceil_le_ceil
  have h02 : 0 < γ2 := lt_of_lt_of_le h0 hγγ
  have hd2 : 0 < 2 * Real.log (1 / γ2) := by
    have := log_one_div_pos h02 h1; linarith
  have hdd : 2 * Real.log (1 / γ2) ≤ 2 * Real.log (1 / γ) := by
    have hlog : Real.log (1 / γ2) ≤ Real.log (1 / γ) :=
      Real.log_le_log (by positivity) (by
        apply div_le_div_of_nonneg_left (by norm_num) h0 hγγ)
    linarith
  exact div_le_div_of_nonneg_left
    (Real.log_nonneg (by exact_mod_cast hM)) hd2 hdd

/-! ### The scan semantics of `allocLoop` -/

theorem allocLoop_none_iff (B : ℕ) (γ : ℝ) :
    ∀ fuel ep, allocLoop B γ fuel ep = none ↔
      ∀ k, ep ≤ k → k < ep + fuel → (k : ℤ) * horizon k γ ≤ (B : ℤ) := by
  intro fuel
  induction fuel with
  | zero =>
    intro ep
    simp only [allocLoop, Nat.add_zero, true_iff]
    intro k hk hk2
    omega
  | succ fuel ih =>
    intro ep
    rw [allocLoop]
    split
    · rename_i hc
      simp only [reduceCtorEq, false_iff, not_forall]
      refine ⟨ep, le_refl ep, by omega, by exact not_le.mpr hc⟩
    · rename_i hc
      rw [ih (ep + 1)]
      constructor
      · intro h k hk hk2
        rcases Nat.eq_or_lt_of_le hk with rfl | hlt
        · exact le_of_not_lt hc
        · exact h k hlt (by omega)
      · intro h k hk hk2
        exact h k (by omega) (by omega)

theorem allocLoop_some (B : ℕ) (γ : ℝ) :
    ∀ fuel ep M L, allocLoop B γ fuel ep = some (M, L) →
      ∃ M0, ep ≤ M0 ∧ M = M0 - 1 ∧ L = horizon (M0 - 1) γ ∧
        (B : ℤ) < (M0 : ℤ) * horizon M0 γ ∧
        ∀ k, ep ≤ k → k < M0 → (k : ℤ) * horizon k γ ≤ (B : ℤ) := by
  intro fuel
  induction fuel with
  | zero => intro ep M L h; simp [allocLoop] at h
  | succ fuel ih =>
    intro ep M L h
    rw [allocLoop] at h
    split at h
    · rename_i hc
      obtain ⟨h1, h2⟩ := Prod.mk.inj (Option.some_inj.mp h)
      subst h1; subst h2
      refine ⟨ep, le_refl ep, rfl, rfl, hc, ?_⟩
      intro k hk hk2; omega
    · rename_i hc
      obtain ⟨M0, h1, h2, h3, h4, h5⟩ := ih (ep + 1) M L h
      refine ⟨M0, by omega, h2, h3, h4, ?_⟩
      intro k hk hk2
      rcases Nat.eq_or_lt_of_le hk with rfl | hlt
      · exact le_of_not_lt hc
      · exact h5 k (by omega) hk2

theorem allocLoop_zero (B : ℕ) (γ : ℝ) (ep : ℕ) : allocLoop B γ 0 ep = none :=
  rfl

theorem allocLoop_succ (B : ℕ) (γ : ℝ) (fuel ep : ℕ) :
    allocLoop B γ (fuel + 1) ep =
      if (B : ℤ) < (ep : ℤ) * horizon ep γ then
        some (ep - 1, horizon (ep - 1) γ)
      else allocLoop B γ fuel (ep + 1) := by
  rw [allocLoop]

/-! ### Concrete `horizon` values at gamma = 1/2 -/

theorem log_two_pos : 0 < Real.log 2 := Real.log_pos (by norm_num)

theorem two_log_two : 2 * Real.log 2 = Real.log 4 := by
  rw [show (4 : ℝ) = 2 ^ 2 by norm_num, Real.log_pow]
  push_cast
  ring

theorem horizon_two_half : horizon 2 (1 / 2) = 1 := by
  have h2 := log_two_pos
  rw [horizon, show (1 : ℝ) / (1 / 2) = 2 by norm_num,
    show ((2 : ℕ) : ℝ) = 2 by norm_num, Int.ceil_eq_iff]
  push_cast
  constructor
  · rw [lt_div_iff₀ (by linarith)]
    linarith
  · rw [div_le_one (by linarith)]
    linarith

theorem horizon_three_half : horizon 3 (1 / 2) = 1 := by
  have h2 := log_two_pos
  have h34 : Real.log 3 ≤ Real.log 4 := Real.log_le_log (by norm_num) (by norm_num)
  have h3 : 0 < Real.log 3 := Real.log_pos (by norm_num)
  rw [horizon, show (1 : ℝ) / (1 / 2) = 2 by norm_num,
    show ((3 : ℕ) : ℝ) = 3 by norm_num, Int.ceil_eq_iff]
  push_cast
  constructor
  · have : 0 < Real.log 3 / (2 * Real.log 2) := by positivity
    linarith
  · rw [div_le_one (by linarith), two_log_two]
    linarith

theorem horizon_four_half : horizon 4 (1 / 2) = 1 := by
  have h2 := log_two_pos
  rw [horizon, show (1 : ℝ) / (1 / 2) = 2 by norm_num,
    show ((4 : ℕ) : ℝ) = 4 by norm_num, two_log_two,
    div_self (by rw [← two_log_two]; positivity)]
  exact Int.ceil_one

theorem horizon_five_half : horizon 5 (1 / 2) = 2 := by
  have h2 := log_two_pos
  have h45 : Real.log 4 < Real.log 5 := Real.log_lt_log (by norm_num) (by norm_num)
  have h516 : Real.log 5 ≤ Real.log 16 := Real.log_le_log (by norm_num) (by norm_num)
  have h16 : Real.log 16 = 4 * Real.log 2 := by
    rw [show (16 : ℝ) = 2 ^ 4 by norm_num, Real.log_pow]
    push_cast
    ring
  rw [horizon, show (1 : ℝ) / (1 / 2) = 2 by norm_num,
    show ((5 : ℕ) : ℝ) = 5 by norm_num, Int.ceil_eq_iff]
  push_cast
  constructor
  · rw [show (2 : ℝ) - 1 = 1 by norm_num, one_lt_div (by linarith), two_log_two]
    linarith
  · rw [div_le_iff₀ (by linarith)]
    linarith

theorem allocate_budget_six_half : allocate_budget 6 (1 / 2) = some (4, 1) := by
  show allocLoop 6 (1 / 2) (6 - 1) 1 = some (4, 1)
  rw [show (6 - 1 : ℕ) = 4 + 1 from rfl, allocLoop_succ,
    if_neg (by rw [horizon_one]; norm_num)]
  rw [show (4 : ℕ) = 3 + 1 from rfl, allocLoop_succ,
    if_neg (by rw [show (1 + 1 : ℕ) = 2 from rfl, horizon_two_half]; norm_num)]
  rw [show (3 : ℕ) = 2 + 1 from rfl, allocLoop_succ,
    if_neg (by rw [show (1 + 1 + 1 : ℕ) = 3 from rfl, horizon_three_half]; norm_num)]
  rw [show (2 : ℕ) = 1 + 1 from rfl, allocLoop_succ,
    if_neg (by rw [show (1 + 1 + 1 + 1 : ℕ) = 4 from rfl, horizon_four_half]; norm_num)]
  rw [show (1 : ℕ) = 0 + 1 from rfl, allocLoop_succ,
    if_pos (by rw [show (1 + 1 + 1 + 1 + 1 : ℕ) = 5 from rfl, horizon_five_half]; norm_num)]
  rw [show (1 + 1 + 1 + 1 + 1 - 1 : ℕ) = 4 from rfl, horizon_four_half]

/-! ### Claim C1 -/

/-- C1: when `allocate_budget` succeeds on a positive budget `B` and a
discount `gamma` in `(0,1)`, the returned episode count `M` is at least 1,
satisfies `M * horizon(M, gamma) <= B`, every strictly larger episode
count violates that bound (so `M` is the largest such value), and the
returned horizon equals `horizon(M, gamma)`; in particular
`episodes * horizon <= budget`. -/
theorem allocate_budget_maximal (B : ℕ) (γ : ℝ) (M : ℕ) (L : ℤ)
    (hB : 0 < B) (hγ0 : 0 < γ) (hγ1 : γ < 1)
    (h : allocate_budget B γ = some (M, L)) :
    (1 ≤ M ∧ (M : ℤ) * horizon M γ ≤ (B : ℤ) ∧
      ∀ M2 : ℕ, M < M2 → (B : ℤ) < (M2 : ℤ) * horizon M2 γ) ∧
    L = horizon M γ := by
  obtain ⟨M0, hep, hM, hL, hviol, hok⟩ := allocLoop_some B γ (B - 1) 1 M L h
  have hM0ne : M0 ≠ 1 := by
    intro e
    rw [e, horizon_one] at hviol
    simp at hviol
    omega
  have hM02 : 2 ≤ M0 := by omega
  have hM1 : 1 ≤ M := by omega
  subst hM
  refine ⟨⟨hM1, ?_, ?_⟩, hL⟩
  · exact hok (M0 - 1) (by omega) (by omega)
  · intro M2 hM2
    have hM0M2 : M0 ≤ M2 := by omega
    calc (B : ℤ) < (M0 : ℤ) * horizon M0 γ := hviol
      _ ≤ (M2 : ℤ) * horizon M2 γ := by
          apply mul_le_mul (by exact_mod_cast hM0M2)
            (horizon_mono_episodes hγ0 hγ1 (by omega) hM0M2)
            (horizon_nonneg M0 hγ0 hγ1 (by omega))
            (by positivity)

theorem allocate_budget_maximal_witness :
    0 < 6 ∧ (0 : ℝ) < 1 / 2 ∧ (1 / 2 : ℝ) < 1 ∧
    ((4 : ℕ) : ℤ) * horizon 4 (1 / 2) ≤ ((6 : ℕ) : ℤ) ∧
    ((6 : ℕ) : ℤ) < ((5 : ℕ) : ℤ) * horizon 5 (1 / 2) ∧
    (1 : ℤ) = horizon 4 (1 / 2) := by
  have h := allocate_budget_maximal 6 (1 / 2) 4 1 (by norm_num) (by norm_num)
    (by norm_num) allocate_budget_six_half
  exact ⟨by norm_num, by norm_num, by norm_num,
    h.1.2.1, h.1.2.2 5 (by norm_num), h.2⟩

/-! ### Claim C4 -/

/-- C4 (amended): `allocate_budget` fails exactly when every `M` in
`[1, B)` satisfies `M * horizon(M, gamma) <= B` — the scan raises when it
finds no violating episode count, not when no valid one exists. -/
theorem allocate_budget_none_iff (B : ℕ) (γ : ℝ) :
    allocate_budget B γ = none ↔
      ∀ M : ℕ, 1 ≤ M → M < B → (M : ℤ) * horizon M γ ≤ (B : ℤ) := by
  unfold allocate_budget
  rw [allocLoop_none_iff]
  constructor
  · intro h M h1 h2
    exact h M h1 (by omega)
  · intro h k h1 h2
    exact h k h1 (by omega)

/-- C4 counterexample: at budget 2 and gamma 1/2 the allocator raises,
although `M = 1` lies in `[1, 2)` and satisfies
`1 * horizon(1, 1/2) = 0 <= 2`: failure is not "exactly when no `M >= 1`
in `[1, B)` satisfies the bound". -/
theorem allocate_budget_failure_cex :
    allocate_budget 2 (1 / 2) = none ∧ (1 : ℕ) < 2 ∧
    ((1 : ℕ) : ℤ) * horizon 1 (1 / 2) ≤ ((2 : ℕ) : ℤ) := by
  refine ⟨?_, by norm_num, by rw [horizon_one]; norm_num⟩
  show allocLoop 2 (1 / 2) (2 - 1) 1 = none
  rw [show (2 - 1 : ℕ) = 0 + 1 from rfl, allocLoop_succ,
    if_neg (by rw [horizon_one]; norm_num)]
  exact allocLoop_zero 2 (1 / 2) 2

theorem allocate_budget_none_iff_witness : allocate_budget 3 (1 / 2) = none := by
  rw [allocate_budget_none_iff]
  intro M h1 h2
  interval_cases M
  · rw [horizon_one]
    norm_num
  · rw [horizon_two_half]
    norm_num

/-! ### Claim C8 -/

/-- C8 (amended): for gamma in `(0,1)`, `horizon(M, gamma)` is
non-decreasing in `M` over `M >= 1`, and for fixed `M >= 1` it is
non-decreasing (not strictly increasing) in gamma. -/
theorem horizon_monotone :
    (∀ (M M2 : ℕ) (γ : ℝ), 0 < γ → γ < 1 → 1 ≤ M → M ≤ M2 →
        horizon M γ ≤ horizon M2 γ) ∧
    (∀ (M : ℕ) (γ γ2 : ℝ), 1 ≤ M → 0 < γ → γ ≤ γ2 → γ2 < 1 →
        horizon M γ ≤ horizon M γ2) :=
  ⟨fun _ _ _ h0 h1 hM hMM => horizon_mono_episodes h0 h1 hM hMM,
   fun M _ _ hM h0 hγγ h1 => horizon_mono_gamma M hM h0 hγγ h1⟩

theorem horizon_monotone_witness :
    horizon 2 (1 / 2) ≤ horizon 4 (1 / 2) ∧
    horizon 2 (1 / 2) ≤ horizon 2 (3 / 4) :=
  ⟨horizon_monotone.1 2 4 (1 / 2) (by norm_num) (by norm_num) (by norm_num)
      (by norm_num),
   horizon_monotone.2 2 (1 / 2) (3 / 4) (by norm_num) (by norm_num)
      (by norm_num) (by norm_num)⟩

/-- C8 counterexample: at `M = 1` the horizon is 0 for every gamma, so
it is not strictly increasing in gamma: gamma 1/2 < 3/4 inside `(0,1)`
yet the two horizons are equal. -/
theorem horizon_not_strict_in_gamma_cex :
    (0 : ℝ) < 1 / 2 ∧ (1 / 2 : ℝ) < 3 / 4 ∧ (3 / 4 : ℝ) < 1 ∧
    horizon 1 (1 / 2) = horizon 1 (3 / 4) := by
  refine ⟨by norm_num, by norm_num, by norm_num, ?_⟩
  rw [horizon_one, horizon_one]

/-! ## Look-ahead nodes with parent references

A node of the look-ahead tree as the value passes see it: its own
`mu_ucb` bound and sticky `done` flag, plus the chain of
parent references up to the root (`OLOPNode.parent`). -/

inductive PNode where
  | root (mu : ℝ) (term : Bool)
  | child (mu : ℝ) (term : Bool) (parent : PNode)

def PNode.mu : PNode → ℝ
  | .root m _ => m
  | .child m _ _ => m

def PNode.term : PNode → Bool
  | .root _ d => d
  | .child _ d _ => d

/-- Depth of a node: the length of the path from the root
(`len(path)` in `compute_u_values`). -/
def PNode.depth : PNode → ℕ
  | .root _ _ => 0
  | .child _ _ p => p.depth + 1

/-- `node_t = node_t.parent`; on the root (parent `None`) never executed
by the loops below, clamped to the root itself. -/
def PNode.parentD : PNode → PNode
  | .root m d => .root m d
  | .child _ _ p => p

/-- The ancestor `k` steps above a node (0 steps = the node itself). -/
def PNode.up : PNode → ℕ → PNode
  | n, 0 => n
  | .root m d, _ + 1 => .root m d
  | .child _ _ p, k + 1 => p.up k

/-! ## OLOP.compute_u_values (olop.py lines 110-127)

```
node.value = self.config["gamma"] ** (len(path) + 1) / (1 - self.config["gamma"]) if not node.done else 0
node_t = node
for t in np.arange(len(path), 0, -1):  # from current node up to the root
    node.value += self.config["gamma"]**t * node_t.mu_ucb
    node_t = node_t.parent
```

`uLoop γ t node_t` is the `for` loop with countdown value `t`. -/

def uLoop (γ : ℝ) : ℕ → PNode → ℝ
  | 0, _ => 0
  | t + 1, n => γ ^ (t + 1) * n.mu + uLoop γ t n.parentD

noncomputable def compute_u_values (γ : ℝ) (n : PNode) : ℝ :=
  (if n.term then 0 else γ ^ (n.depth + 1) / (1 - γ)) + uLoop γ n.depth n

/-! ## OLOP.sharpen_b_values (olop.py lines 129-147)

```
if node.planner.config["upper_bound"] == "kullback-leibler":
    return node.value
else:
    node_t = node
    min_value = node.value
    while node_t.parent:
        min_value = min(min_value, node_t.value)
        node_t = node_t.parent
    return min_value
```

After pass 1 every stored `node.value` equals `compute_u_values` of that
node, so the loop is modelled reading values through `compute_u_values`. -/

inductive UpperBound where
  | hoeffding
  | kullback_leibler
deriving DecidableEq

noncomputable def sharpenLoop (γ : ℝ) : ℝ → PNode → ℝ
  | m, .root _ _ => m
  | m, .child mu d p => sharpenLoop γ (min m (compute_u_values γ (.child mu d p))) p

noncomputable def sharpen_b_values (ub : UpperBound) (γ : ℝ) (n : PNode) : ℝ :=
  match ub with
  | .kullback_leibler => compute_u_values γ n
  | .hoeffding => sharpenLoop γ (compute_u_values γ n) n

/-- The path of nodes the sharpening loop reads a value from: the node
itself and its ancestors, the root excluded (the `while` guard tests
`node_t.parent` before reading `node_t.value`). -/
def pathNodes : PNode → List PNode
  | .root _ _ => []
  | .child mu d p => .child mu d p :: pathNodes p

/-- Modelled from the spec claim for comparison: the minimum of the
U-value over the leaf and all of its ancestors, up to AND INCLUDING the
root. -/
noncomputable def sharpen_spec_with_root (γ : ℝ) : PNode → ℝ
  | .root mu d => compute_u_values γ (.root mu d)
  | .child mu d p =>
      min (compute_u_values γ (.child mu d p)) (sharpen_spec_with_root γ p)

/-! ### Claim C2 -/

theorem uLoop_eq_sum (γ : ℝ) : ∀ n : PNode,
    uLoop γ n.depth n =
      ∑ t ∈ Finset.Icc 1 n.depth, γ ^ t * (n.up (n.depth - t)).mu := by
  intro n
  induction n with
  | root mu d => simp [PNode.depth, uLoop]
  | child mu d p ih =>
    have hd : (PNode.child mu d p).depth = p.depth + 1 := rfl
    rw [hd, uLoop, Finset.sum_Icc_succ_top (by omega : 1 ≤ p.depth + 1)]
    rw [show p.depth + 1 - (p.depth + 1) = 0 from by omega]
    have hsum : ∑ t ∈ Finset.Icc 1 p.depth,
          γ ^ t * ((PNode.child mu d p).up (p.depth + 1 - t)).mu
        = ∑ t ∈ Finset.Icc 1 p.depth, γ ^ t * (p.up (p.depth - t)).mu := by
      apply Finset.sum_congr rfl
      intro t ht
      rw [Finset.mem_Icc] at ht
      rw [show p.depth + 1 - t = (p.depth - t) + 1 from by omega]
      rfl
    rw [hsum, ← ih]
    simp only [PNode.mu, PNode.parentD, PNode.up]
    ring

/-- C2: for every node at depth `d` and gamma in `(0,1)`, the first value
pass assigns `U(node) = sum over t = 1..d of gamma^t * mu_ucb(ancestor at
depth t)` (the ancestor at depth `t` sits `d - t` parent steps above the
node) plus a tail of `gamma^(d+1) / (1 - gamma)` when the node is not
terminal and `0` when it is. -/
theorem compute_u_values_closed_form (γ : ℝ) (n : PNode)
    (hγ0 : 0 < γ) (hγ1 : γ < 1) :
    compute_u_values γ n =
      (∑ t ∈ Finset.Icc 1 n.depth, γ ^ t * (n.up (n.depth - t)).mu) +
      (if n.term then 0 else γ ^ (n.depth + 1) / (1 - γ)) := by
  rw [compute_u_values, uLoop_eq_sum, add_comm]

theorem compute_u_values_closed_form_witness :
    (0 : ℝ) < 1 / 2 ∧ (1 / 2 : ℝ) < 1 ∧
    compute_u_values (1 / 2) (.child 1 false (.root 0 false)) =
      (∑ t ∈ Finset.Icc 1 (PNode.child 1 false (.root 0 false)).depth,
        (1 / 2 : ℝ) ^ t *
          ((PNode.child 1 false (.root 0 false)).up
            ((PNode.child 1 false (.root 0 false)).depth - t)).mu) +
      (if (PNode.child 1 false (.root 0 false)).term then 0
        else (1 / 2 : ℝ) ^ ((PNode.child 1 false (.root 0 false)).depth + 1)
          / (1 - 1 / 2)) :=
  ⟨by norm_num, by norm_num,
   compute_u_values_closed_form (1 / 2) _ (by norm_num) (by norm_num)⟩

/-! ### Claim C3 -/

theorem sharpenLoop_le_init (γ : ℝ) :
    ∀ (n : PNode) (m : ℝ), sharpenLoop γ m n ≤ m := by
  intro n
  induction n with
  | root mu d => intro m; rw [sharpenLoop]
  | child mu d p ih =>
    intro m
    rw [sharpenLoop]
    exact le_trans (ih _) (min_le_left _ _)

theorem sharpenLoop_le_path (γ : ℝ) :
    ∀ (n : PNode) (m : ℝ), ∀ k ∈ pathNodes n,
      sharpenLoop γ m n ≤ compute_u_values γ k := by
  intro n
  induction n with
  | root mu d => intro m k hk; simp [pathNodes] at hk
  | child mu d p ih =>
    intro m k hk
    rw [pathNodes] at hk
    rw [sharpenLoop]
    rcases List.mem_cons.mp hk with rfl | hk2
    · exact le_trans (sharpenLoop_le_init γ p _) (min_le_right _ _)
    · exact ih _ k hk2

theorem sharpenLoop_mem (γ : ℝ) : ∀ (n : PNode) (m : ℝ),
    sharpenLoop γ m n = m ∨
      ∃ k ∈ pathNodes n, sharpenLoop γ m n = compute_u_values γ k := by
  intro n
  induction n with
  | root mu d => intro m; left; rfl
  | child mu d p ih =>
    intro m
    rw [sharpenLoop]
    rcases ih (min m (compute_u_values γ (.child mu d p))) with h | ⟨k, hk, he⟩
    · rcases min_choice m (compute_u_values γ (.child mu d p)) with hm | hm
      · left; rw [h, hm]
      · right
        exact ⟨.child mu d p, List.mem_cons_self _ _, by rw [h, hm]⟩
    · right
      exact ⟨k, List.mem_cons_of_mem _ hk, he⟩

/-- C3 (amended): after the first value pass, the Hoeffding-oracle score
of a leaf is the minimum of the U-value over the leaf and its ancestors
at depth 1 and deeper — the root's own U-value is NOT included (the
`while node_t.parent` guard stops before reading the root); the
kullback-leibler score is the leaf's own U-value, and in every case the
sharpened score is at most the leaf's own unsharpened U-value, with
equality in the KL case. -/
theorem sharpen_b_values_characterization (ub : UpperBound) (γ : ℝ) (n : PNode) :
    (ub = .kullback_leibler → sharpen_b_values ub γ n = compute_u_values γ n) ∧
    (ub = .hoeffding →
      sharpen_b_values ub γ n ∈
        compute_u_values γ n :: (pathNodes n).map (compute_u_values γ) ∧
      ∀ v ∈ compute_u_values γ n :: (pathNodes n).map (compute_u_values γ),
        sharpen_b_values ub γ n ≤ v) ∧
    sharpen_b_values ub γ n ≤ compute_u_values γ n := by
  cases ub with
  | kullback_leibler =>
    exact ⟨fun _ => rfl, fun h => absurd h (by decide), le_refl _⟩
  | hoeffding =>
    refine ⟨fun h => absurd h (by decide), fun _ => ⟨?_, ?_⟩,
      sharpenLoop_le_init γ n _⟩
    · rcases sharpenLoop_mem γ n (compute_u_values γ n) with h | ⟨k, hk, he⟩
      · rw [sharpen_b_values, h]
        exact List.mem_cons_self _ _
      · rw [sharpen_b_values, he]
        exact List.mem_cons_of_mem _ (List.mem_map_of_mem _ hk)
    · intro v hv
      rcases List.mem_cons.mp hv with rfl | hv2
      · exact sharpenLoop_le_init γ n _
      · obtain ⟨k, hk, rfl⟩ := List.mem_map.mp hv2
        exact sharpenLoop_le_path γ n _ k hk

theorem sharpen_b_values_characterization_witness :
    sharpen_b_values .kullback_leibler (1 / 2) (.root 0 false)
        = compute_u_values (1 / 2) (.root 0 false) ∧
    sharpen_b_values .hoeffding (1 / 2) (.root 0 false)
        ≤ compute_u_values (1 / 2) (.root 0 false) :=
  ⟨(sharpen_b_values_characterization .kullback_leibler (1 / 2)
      (.root 0 false)).1 rfl,
   (sharpen_b_values_characterization .hoeffding (1 / 2)
      (.root 0 false)).2.2⟩

/-- C3 counterexample: gamma 1/2, a non-terminal root with a single
non-terminal depth-1 leaf whose `mu_ucb` is 2 (upper bounds may exceed
1). The first pass gives the root U-value 1 and the leaf U-value 3/2;
the code's Hoeffding sharpening returns 3/2, while the claimed
minimum-including-the-root would be 1. -/
theorem sharpen_excludes_root_cex :
    sharpen_b_values .hoeffding (1 / 2) (.child 2 false (.root 0 false))
        = 3 / 2 ∧
    sharpen_spec_with_root (1 / 2) (.child 2 false (.root 0 false)) = 1 ∧
    (3 / 2 : ℝ) ≠ 1 := by
  have hroot : compute_u_values (1 / 2) (.root 0 false) = 1 := by
    rw [compute_u_values]
    norm_num [PNode.depth, PNode.term, uLoop]
  have hleaf : compute_u_values (1 / 2) (.child 2 false (.root 0 false))
      = 3 / 2 := by
    rw [compute_u_values]
    show (if (PNode.child 2 false (.root 0 false)).term then (0:ℝ)
        else (1/2) ^ ((PNode.child 2 false (.root 0 false)).depth + 1) / (1 - 1/2))
      + uLoop (1/2) (PNode.child 2 false (.root 0 false)).depth
          (.child 2 false (.root 0 false)) = 3 / 2
    norm_num [PNode.depth, PNode.term, PNode.parentD, PNode.mu, uLoop]
  refine ⟨?_, ?_, by norm_num⟩
  · rw [sharpen_b_values]
    rw [show sharpenLoop (1 / 2)
        (compute_u_values (1 / 2) (.child 2 false (.root 0 false)))
        (.child 2 false (.root 0 false))
      = min (compute_u_values (1 / 2) (.child 2 false (.root 0 false)))
          (compute_u_values (1 / 2) (.child 2 false (.root 0 false)))
      from rfl]
    rw [min_self, hleaf]
  · rw [sharpen_spec_with_root, sharpen_spec_with_root, hroot, hleaf]
    norm_num

/-! ## Rollout action substitution (OLOP.run, olop.py lines 96-108)

```
if action not in node.children:  # Default action may not be available
    action = node.children.keys()[0]  # Pick first available action
node = node.children[action]
```

`children` is the node's action-to-child dict; a Python dict iterates its
keys in insertion order, so it is modelled as an association list in
insertion order and `keys()[0]` as the head of the key list. -/

def substituteAction {α : Type} (children : List (ℕ × α)) (action : ℕ) :
    Option ℕ :=
  match children.lookup action with
  | some _ => some action
  | none => (children.map Prod.fst).head?

def rolloutAdvance {α : Type} (children : List (ℕ × α)) (action : ℕ) :
    Option (ℕ × α) :=
  match substituteAction children action with
  | none => none
  | some a => (children.lookup a).map (fun c => (a, c))

/-- Modelled from the spec claim for comparison: the deterministic
"lowest-indexed available action" among the node's children. -/
def lowestAvailableAction {α : Type} (children : List (ℕ × α)) : Option ℕ :=
  (children.map Prod.fst).min?

/-! ### Claim C5 -/

/-- C5 (amended): when the attempted action is absent from a non-empty
children mapping, the rollout recovers without an error by substituting
the FIRST key of the mapping in insertion order and advancing to that
child; this is the lowest-indexed available action only when the children
were inserted in increasing action order, not in general. -/
theorem rollout_substitutes_first_key {α : Type} (a0 : ℕ) (c0 : α)
    (rest : List (ℕ × α)) (action : ℕ)
    (habs : ((a0, c0) :: rest).lookup action = none) :
    rolloutAdvance ((a0, c0) :: rest) action = some (a0, c0) := by
  rw [rolloutAdvance, substituteAction, habs]
  simp [List.lookup]

theorem rollout_substitutes_first_key_witness :
    (([(2, 0), (1, 1)] : List (ℕ × ℕ)).lookup 0 = none) ∧
    rolloutAdvance ([(2, 0), (1, 1)] : List (ℕ × ℕ)) 0 = some (2, 0) :=
  ⟨by decide, rollout_substitutes_first_key 2 0 [(1, 1)] 0 (by decide)⟩

/-- C5 counterexample: children inserted in order `[2, 1]` (possible when
the environment enumerates available actions in a non-increasing order)
and attempted action `0`: the code substitutes the first inserted key
`2`, not the lowest-indexed available action `1`. -/
theorem substitute_not_lowest_cex :
    substituteAction ([(2, 0), (1, 1)] : List (ℕ × ℕ)) 0 = some 2 ∧
    lowestAvailableAction ([(2, 0), (1, 1)] : List (ℕ × ℕ)) = some 1 ∧
    (2 : ℕ) ≠ 1 := by decide

/-! ## OLOPNode.update (olop.py lines 182-192)

```
if not 0 <= reward <= 1:
    raise ValueError("This planner assumes that all rewards are normalized in [0, 1]")
self.cumulative_reward += reward
self.count += 1
if self.planner.config["upper_bound"] == "hoeffding":
    self.mu_ucb = hoeffding_upper_bound(self.cumulative_reward, self.count, self.planner.config["episodes"])
elif self.planner.config["upper_bound"] == "kullback-leibler":
    self.mu_ucb = kl_upper_bound(self.cumulative_reward, self.count, self.planner.config["episodes"])
if done and OLOPNode.STOP_ON_ANY_TERMINAL_STATE:
    self.done = True
```

The two bound primitives live in rl_agents/agents/utils.py, outside this
repository's staged sources; they are passed as function parameters. The
mutation becomes explicit state passing; the raise happens before any
field assignment, which the `Except` result models. -/

structure NodeState where
  count : ℕ
  cumulative_reward : ℝ
  mu_ucb : ℝ
  term : Bool

def STOP_ON_ANY_TERMINAL_STATE : Bool := true

noncomputable def update (ub : UpperBound)
    (hoeffding_upper_bound kl_upper_bound : ℝ → ℕ → ℕ → ℝ)
    (episodes : ℕ) (s : NodeState) (reward : ℝ) (d : Bool) :
    Except String NodeState :=
  if 0 ≤ reward ∧ reward ≤ 1 then
    Except.ok
      { count := s.count + 1
        cumulative_reward := s.cumulative_reward + reward
        mu_ucb :=
          match ub with
          | .hoeffding =>
              hoeffding_upper_bound (s.cumulative_reward + reward)
                (s.count + 1) episodes
          | .kullback_leibler =>
              kl_upper_bound (s.cumulative_reward + reward)
                (s.count + 1) episodes
        term := s.term || (d && STOP_ON_ANY_TERMINAL_STATE) }
  else
    Except.error "This planner assumes that all rewards are normalized"

/-- The node state the caller observes after a call of `update`: the new
state on success, the untouched old state when the call raised. -/
noncomputable def tryUpdate (ub : UpperBound)
    (hb kb : ℝ → ℕ → ℕ → ℝ) (episodes : ℕ) (s : NodeState) (reward : ℝ)
    (d : Bool) : NodeState :=
  match update ub hb kb episodes s reward d with
  | .ok s2 => s2
  | .error _ => s

/-! ### Claim C6 -/

/-- C6: for every node state and every reward outside `[0,1]`, `update`
fails with the domain (ValueError) message and the node's state is
unchanged: count, cumulative_reward, mu_ucb and the terminal flag are
all the same after the failed call as before it. -/
theorem update_rejects_out_of_range (ub : UpperBound)
    (hb kb : ℝ → ℕ → ℕ → ℝ) (episodes : ℕ) (s : NodeState) (reward : ℝ)
    (d : Bool) (h : reward < 0 ∨ 1 < reward) :
    update ub hb kb episodes s reward d =
      Except.error "This planner assumes that all rewards are normalized" ∧
    tryUpdate ub hb kb episodes s reward d = s ∧
    (tryUpdate ub hb kb episodes s reward d).count = s.count ∧
    (tryUpdate ub hb kb episodes s reward d).cumulative_reward
      = s.cumulative_reward ∧
    (tryUpdate ub hb kb episodes s reward d).mu_ucb = s.mu_ucb ∧
    (tryUpdate ub hb kb episodes s reward d).term = s.term := by
  have hcond : ¬(0 ≤ reward ∧ reward ≤ 1) := by
    rcases h with h | h
    · exact fun hc => absurd hc.1 (not_le.mpr h)
    · exact fun hc => absurd hc.2 (not_le.mpr h)
  have herr : update ub hb kb episodes s reward d =
      Except.error "This planner assumes that all rewards are normalized" := by
    unfold update
    rw [if_neg hcond]
  have hst : tryUpdate ub hb kb episodes s reward d = s := by
    rw [tryUpdate, herr]
  exact ⟨herr, hst, by rw [hst], by rw [hst], by rw [hst], by rw [hst]⟩

theorem update_rejects_out_of_range_witness :
    ((2 : ℝ) < 0 ∨ (1 : ℝ) < 2) ∧
    update .hoeffding (fun _ _ _ => 0) (fun _ _ _ => 0) 0 ⟨0, 0, 0, false⟩
        2 false =
      Except.error "This planner assumes that all rewards are normalized" ∧
    tryUpdate .hoeffding (fun _ _ _ => 0) (fun _ _ _ => 0) 0 ⟨0, 0, 0, false⟩
        2 false = ⟨0, 0, 0, false⟩ := by
  have h := update_rejects_out_of_range .hoeffding (fun _ _ _ => 0)
    (fun _ _ _ => 0) 0 ⟨0, 0, 0, false⟩ 2 false (Or.inr (by norm_num))
  exact ⟨Or.inr (by norm_num), h.1, h.2.1⟩

/-! ## OLOPNode.expand (olop.py lines 194-209)

```
if state is None:
    raise Exception("The state should be set before expanding a node")
try:
    actions = state.get_available_actions()
except AttributeError:
    actions = range(state.action_space.n)
for action in actions:
    self.children[action] = type(self)(self, self.planner)
    if update_children: ...
leaves.remove(self)
leaves.extend(self.children.values())
```

Nodes are identified by ids (natural numbers); `kid` names the fresh
child node created for each action. The children dict becomes an
association list in insertion order; `leaves.remove` removes the first
occurrence. The planner's rollout path calls expand with
`update_children=False`, so the optional per-child sampling is not
modelled. -/

def expand (state : Option Unit) (self : ℕ) (actions : List ℕ)
    (kid : ℕ → ℕ) (leaves : List ℕ) :
    Except String (List (ℕ × ℕ) × List ℕ) :=
  match state with
  | none => Except.error "The state should be set before expanding a node"
  | some _ =>
      Except.ok (actions.map (fun a => (a, kid a)),
        (leaves.erase self) ++ actions.map kid)

theorem lookup_map_self {β : Type} (kid : ℕ → β) :
    ∀ actions : List ℕ, ∀ a ∈ actions,
      (actions.map (fun x => (x, kid x))).lookup a = some (kid a) := by
  intro actions
  induction actions with
  | nil => intro a ha; cases ha
  | cons b rest ih =>
    intro a ha
    by_cases hba : b = a
    · subst hba
      simp [List.lookup]
    · rw [List.map_cons, List.lookup]
      rw [show (a == b) = false from
        beq_eq_false_iff_ne.mpr (fun e => hba e.symm)]
      exact ih a (List.mem_of_ne_of_mem (fun e => hba e.symm) ha)

/-! ### Claim C7 -/

/-- C7: expanding a node of the leaf frontier with an action set of size
`n` (distinct actions, fresh child nodes) creates exactly `n` children —
one per action — removes the expanded node from the shared leaf list,
adds all `n` children to it, keeps every other frontier member, and adds
nothing else; so the frontier stays the set of childless nodes. -/
theorem expand_frontier_update (self : ℕ) (actions : List ℕ) (kid : ℕ → ℕ)
    (leaves : List ℕ) (kids : List (ℕ × ℕ)) (newLeaves : List ℕ)
    (hself : self ∈ leaves) (hnd : leaves.Nodup)
    (hfresh : ∀ a ∈ actions, kid a ∉ leaves)
    (heq : expand (some ()) self actions kid leaves
      = Except.ok (kids, newLeaves)) :
    kids.length = actions.length ∧
    (∀ a ∈ actions, kids.lookup a = some (kid a)) ∧
    self ∉ newLeaves ∧
    (∀ a ∈ actions, kid a ∈ newLeaves) ∧
    (∀ x ∈ leaves, x ≠ self → x ∈ newLeaves) ∧
    (∀ x ∈ newLeaves, (x ∈ leaves ∧ x ≠ self) ∨ ∃ a ∈ actions, kid a = x) := by
  have hk : kids = actions.map (fun a => (a, kid a)) := by
    simp only [expand] at heq
    exact ((Prod.mk.inj (Except.ok.inj heq)).1).symm
  have hl : newLeaves = (leaves.erase self) ++ actions.map kid := by
    simp only [expand] at heq
    exact ((Prod.mk.inj (Except.ok.inj heq)).2).symm
  subst hk
  subst hl
  refine ⟨List.length_map _ _, lookup_map_self kid actions, ?_, ?_, ?_, ?_⟩
  · intro hmem
    rcases List.mem_append.mp hmem with hmem | hmem
    · exact absurd ((hnd.mem_erase_iff.mp hmem).1) (by simp)
    · obtain ⟨a, ha, he⟩ := List.mem_map.mp hmem
      exact hfresh a ha (he ▸ hself)
  · intro a ha
    exact List.mem_append.mpr (Or.inr (List.mem_map_of_mem _ ha))
  · intro x hx hne
    exact List.mem_append.mpr (Or.inl (hnd.mem_erase_iff.mpr ⟨hne, hx⟩))
  · intro x hx
    rcases List.mem_append.mp hx with hx | hx
    · obtain ⟨hne, hmem⟩ := hnd.mem_erase_iff.mp hx
      exact Or.inl ⟨hmem, hne⟩
    · obtain ⟨a, ha, he⟩ := List.mem_map.mp hx
      exact Or.inr ⟨a, ha, he⟩

theorem expand_frontier_update_witness :
    ((0 : ℕ) ∈ ([0] : List ℕ) ∧ ([0] : List ℕ).Nodup) ∧
    ([(0, 1), (1, 2)] : List (ℕ × ℕ)).length = ([0, 1] : List ℕ).length ∧
    (0 : ℕ) ∉ ([1, 2] : List ℕ) := by
  have h := expand_frontier_update 0 [0, 1] (fun a => a + 1) [0]
    [(0, 1), (1, 2)] [1, 2] (by decide) (by decide) (by decide) rfl
  exact ⟨⟨by decide, by decide⟩, h.1, h.2.2.1⟩

/-! ## OLOP.prebuild_tree (olop.py lines 44-57)

```
for _ in range(self.config["horizon"]):
    next_leaves = []
    for leaf in self.leaves:
        super(OLOPNode, leaf).expand(branching_factor)
        next_leaves += leaf.children.values()
    self.leaves = next_leaves
```

Modelled from the spec for the generic `Node.expand(branching_factor)`
of the tree-search framework (abstract.py, not among this repository's
staged sources): per the spec it eagerly expands each leaf "with the
environment's full action-space size as branching factor", creating one
child per action of `range(branching_factor)` and "replacing the leaf
frontier with the newly created children each pass". A node is
identified with its action path from the root, so the leaf list after
`L` passes is the list of length-`L` action sequences produced below. -/

def prebuildLeaves (b : ℕ) : ℕ → List (List ℕ)
  | 0 => [[]]
  | L + 1 =>
      (prebuildLeaves b L).flatMap
        (fun p => (List.range b).map (fun a => p ++ [a]))

/-! ### Claim C9 -/

/-- C9: after prebuilding with horizon `L` and action-space size `b`, the
leaf frontier holds exactly `b ^ L` leaves, every leaf sits at depth
exactly `L`, and the leaves are precisely all `b ^ L` action sequences of
length `L` over the `b` actions — the tree is the complete `b`-ary tree
of depth `L` (so every non-leaf node has exactly `b` children). -/
theorem prebuild_tree_complete (b L : ℕ) :
    (prebuildLeaves b L).length = b ^ L ∧
    (∀ p ∈ prebuildLeaves b L, p.length = L) ∧
    (∀ p : List ℕ, p ∈ prebuildLeaves b L ↔
      p.length = L ∧ ∀ a ∈ p, a < b) := by
  induction L with
  | zero =>
    refine ⟨rfl, ?_, ?_⟩
    · intro p hp
      rw [show prebuildLeaves b 0 = [[]] from rfl, List.mem_singleton] at hp
      subst hp
      rfl
    · intro p
      rw [show prebuildLeaves b 0 = [[]] from rfl, List.mem_singleton]
      constructor
      · rintro rfl
        exact ⟨rfl, by intro a ha; cases ha⟩
      · rintro ⟨hl, _⟩
        exact List.length_eq_zero.mp hl
  | succ L ih =>
    have hchar : ∀ p : List ℕ, p ∈ prebuildLeaves b (L + 1) ↔
        p.length = L + 1 ∧ ∀ a ∈ p, a < b := by
      intro p
      rw [prebuildLeaves, List.mem_flatMap]
      constructor
      · rintro ⟨q, hq, hp⟩
        obtain ⟨a, ha, rfl⟩ := List.mem_map.mp hp
        rw [List.mem_range] at ha
        obtain ⟨hql, hqb⟩ := (ih.2.2 q).mp hq
        constructor
        · simp [hql]
        · intro x hx
          rcases List.mem_append.mp hx with hx | hx
          · exact hqb x hx
          · rw [List.mem_singleton] at hx
            subst hx
            exact ha
      · rintro ⟨hl, hb⟩
        have hne : p ≠ [] := by
          intro e
          subst e
          simp at hl
        refine ⟨p.dropLast, (ih.2.2 _).mpr ⟨?_, ?_⟩, ?_⟩
        · rw [List.length_dropLast, hl]
          omega
        · intro a ha
          exact hb a (List.dropLast_subset _ ha)
        · rw [List.mem_map]
          refine ⟨p.getLast hne, ?_, ?_⟩
          · rw [List.mem_range]
            exact hb _ (List.getLast_mem hne)
          · exact List.dropLast_append_getLast hne
    refine ⟨?_, fun p hp => ((hchar p).mp hp).1, hchar⟩
    rw [prebuildLeaves, List.length_flatMap]
    have hmap : List.map
          (List.length ∘ fun p => (List.range b).map (fun a => p ++ [a]))
          (prebuildLeaves b L)
        = List.map (fun _ => b) (prebuildLeaves b L) := by
      apply List.map_congr_left
      intro p _
      simp
    rw [hmap, List.map_const', List.sum_replicate, smul_eq_mul, ih.1,
      pow_succ]

theorem prebuild_tree_complete_witness :
    (prebuildLeaves 2 3).length = 2 ^ 3 :=
  (prebuild_tree_complete 2 3).1

/-! ## Configuration and the plan loop (olop.py lines 33-42 and 149-155)

```
def make_root(self):
    root = OLOPNode(parent=None, planner=self)
    self.leaves = [root]
    if "horizon" not in self.config:
        self.allocate_budget()
    ...

def plan(self, state, observation):
    for i in range(self.config['episodes']):
        ...
```

The config dict is modelled as a structure whose `horizon` and
`episodes` entries are optional. The base `default_config` lives in
abstract.py, outside this repository's staged sources; modelled from the
spec, which lists `budget`, `gamma`, optional `horizon`, `upper_bound`
and `lazy_tree_construction` as the recognized options — no `episodes`
default exists, and within olop.py only `allocate_budget` writes the
`episodes` entry. -/

structure OLOPConfig where
  budget : ℕ
  gamma : ℝ
  horizonEntry : Option ℤ
  episodesEntry : Option ℕ
  upper_bound : UpperBound
  lazy_tree_construction : Bool

noncomputable def make_root_alloc (cfg : OLOPConfig) : Except String OLOPConfig :=
  match cfg.horizonEntry with
  | some _ => Except.ok cfg
  | none =>
      match allocate_budget cfg.budget cfg.gamma with
      | some (M, L) =>
          Except.ok { cfg with episodesEntry := some M, horizonEntry := some L }
      | none => Except.error "Could not split budget"

/-- The `range(self.config['episodes'])` read at the head of the episode
loop of OLOP.plan: a missing key raises KeyError. -/
def planEpisodeRead (cfg : OLOPConfig) : Except String ℕ :=
  match cfg.episodesEntry with
  | some M => Except.ok M
  | none => Except.error "KeyError episodes"

/-! ### Claim C10 -/

/-- C10: for every configuration that supplies an explicit horizon entry
without an episodes entry, `make_root` skips `allocate_budget` (the only
writer of the episodes entry), leaving the configuration unchanged, and
the episode loop of `plan` then fails with a lookup (KeyError) error on
reading the missing episodes entry instead of planning. -/
theorem plan_fails_with_horizon_override (cfg : OLOPConfig) (L : ℤ)
    (hh : cfg.horizonEntry = some L) (he : cfg.episodesEntry = none) :
    make_root_alloc cfg = Except.ok cfg ∧
    planEpisodeRead cfg = Except.error "KeyError episodes" := by
  constructor
  · rw [make_root_alloc.eq_def, hh]
  · rw [planEpisodeRead.eq_def, he]

theorem plan_fails_with_horizon_override_witness :
    make_root_alloc ⟨100, 1 / 2, some 3, none, .hoeffding, false⟩ =
      Except.ok ⟨100, 1 / 2, some 3, none, .hoeffding, false⟩ ∧
    planEpisodeRead ⟨100, 1 / 2, some 3, none, .hoeffding, false⟩ =
      Except.error "KeyError episodes" :=
  plan_fails_with_horizon_override ⟨100, 1 / 2, some 3, none, .hoeffding, false⟩
    3 rfl rfl

end OLOPSpec
